import Mathlib

/-!
Shallow embedding of the token distribution engine of src/tokens.rs
(together with the abstract client interface of src/thin_client.rs).

Modelling conventions:
- token amounts (f64 in the source) are exact rationals; the fixed
  0.5-token epsilon of the source is the rational 1/2;
- addresses, signatures and block hashes are strings, as in the records
  the source stores;
- the pickledb store is an association list from signature to record,
  with the set / get / rem / iterate operations the source uses;
- the RPC client is a structure of pure functions (statuses, recent
  blockhashes, balances, the blockhash handed out at submission time,
  and the signature and fresh keypair address resulting from signing);
- source calls that can panic (unwrap of a missing db key) are modelled
  by returning none.
-/

namespace Tokens

/-- Allocation row from src/tokens.rs: recipient address and token amount. -/
structure Allocation where
  recipient : String
  amount : ℚ
deriving DecidableEq, Repr

/-- Bid row used when the input csv is denominated in dollars. -/
structure Bid where
  accepted_amount_dollars : ℚ
  primary_address : String
deriving DecidableEq, Repr

/-- TransactionInfo record persisted in the transaction db. -/
structure TransactionInfo where
  recipient : String
  amount : ℚ
  new_stake_account_address : String
  finalized : Bool
  blockhash : String
deriving DecidableEq, Repr

/-- Transaction status returned by the client; statusOk is true when the
execution result of the transaction is Ok. -/
structure TransactionStatus where
  confirmations : Option Nat
  statusOk : Bool
deriving DecidableEq, Repr

/-- Ledger models the pickledb store: an association list keyed by the
transaction signature. -/
abbrev Ledger := List (String × TransactionInfo)

/-- Lookup of a record by signature (pickledb get). -/
def dbGet (db : Ledger) (signature : String) : Option TransactionInfo :=
  (db.find? (fun kv => kv.1 == signature)).map (fun kv => kv.2)

/-- Store a record under a signature (pickledb set): update the existing
entry in place when the key is present, append otherwise. -/
def dbSet : Ledger → String → TransactionInfo → Ledger
  | [], signature, info => [(signature, info)]
  | kv :: rest, signature, info =>
    if kv.1 == signature then (signature, info) :: rest
    else kv :: dbSet rest signature info

/-- Remove a record by signature (pickledb rem). -/
def dbRem (db : Ledger) (signature : String) : Ledger :=
  db.filter (fun kv => kv.1 != signature)

/-- Keys of the ledger, in iteration order. -/
def dbKeys (db : Ledger) : List String := db.map (fun kv => kv.1)

/-- update_finalized_transaction from src/tokens.rs, lines 434-477.
Set the finalized bit if the transaction is rooted; remove the record if
the transaction failed, or if its status is unknown and its blockhash has
expired; report the confirmation count otherwise.  The unwrap of a missing
db key in the rooted branch is modelled by returning none. -/
def update_finalized_transaction (db : Ledger) (signature : String)
    (opt_transaction_status : Option TransactionStatus) (blockhash : String)
    (recent_blockhashes : List String) : Option (Ledger × Option Nat) :=
  match opt_transaction_status with
  | none =>
    if ¬ recent_blockhashes.contains blockhash then
      some (dbRem db signature, none)
    else
      some (db, some 0)
  | some transaction_status =>
    match transaction_status.confirmations with
    | some confirmations => some (db, some confirmations)
    | none =>
      if transaction_status.statusOk = false then
        some (dbRem db signature, none)
      else
        match dbGet db signature with
        | none => none
        | some transaction_info =>
          some (dbSet db signature { transaction_info with finalized := true }, none)

section DbLemmas

theorem dbGet_nil (t : String) : dbGet [] t = none := rfl

theorem dbGet_cons (kv : String × TransactionInfo) (rest : Ledger) (t : String) :
    dbGet (kv :: rest) t = if kv.1 = t then some kv.2 else dbGet rest t := by
  by_cases h : kv.1 = t
  · simp [dbGet, List.find?_cons, h]
  · simp [dbGet, List.find?_cons, h]

theorem dbRem_cons (kv : String × TransactionInfo) (rest : Ledger) (s : String) :
    dbRem (kv :: rest) s = if kv.1 = s then dbRem rest s else kv :: dbRem rest s := by
  by_cases h : kv.1 = s
  · simp [dbRem, List.filter_cons, h]
  · simp [dbRem, List.filter_cons, h]

theorem dbSet_cons (kv : String × TransactionInfo) (rest : Ledger) (s : String)
    (info : TransactionInfo) :
    dbSet (kv :: rest) s info =
      if kv.1 = s then (s, info) :: rest else kv :: dbSet rest s info := by
  by_cases h : kv.1 = s
  · simp [dbSet, h]
  · simp [dbSet, h]

theorem dbGet_dbRem_self (db : Ledger) (s : String) :
    dbGet (dbRem db s) s = none := by
  induction db with
  | nil => rfl
  | cons kv rest ih =>
    rw [dbRem_cons]
    by_cases h : kv.1 = s
    · simpa [h] using ih
    · rw [if_neg h, dbGet_cons, if_neg h]
      exact ih

theorem dbGet_dbRem_other (db : Ledger) (s t : String) (h : t ≠ s) :
    dbGet (dbRem db s) t = dbGet db t := by
  induction db with
  | nil => rfl
  | cons kv rest ih =>
    rw [dbRem_cons, dbGet_cons]
    by_cases hk : kv.1 = s
    · rw [if_pos hk, ih, if_neg (by rw [hk]; exact fun he => h he.symm)]
    · rw [if_neg hk, dbGet_cons]
      by_cases hkt : kv.1 = t
      · rw [if_pos hkt, if_pos hkt]
      · rw [if_neg hkt, if_neg hkt, ih]

theorem dbGet_dbSet_self (db : Ledger) (s : String) (info : TransactionInfo) :
    dbGet (dbSet db s info) s = some info := by
  induction db with
  | nil => simp [dbSet, dbGet_cons]
  | cons kv rest ih =>
    rw [dbSet_cons]
    by_cases h : kv.1 = s
    · rw [if_pos h, dbGet_cons, if_pos rfl]
    · rw [if_neg h, dbGet_cons, if_neg h]
      exact ih

theorem dbGet_dbSet_other (db : Ledger) (s t : String) (info : TransactionInfo)
    (h : t ≠ s) : dbGet (dbSet db s info) t = dbGet db t := by
  induction db with
  | nil =>
    simp [dbSet, dbGet_cons, dbGet_nil]
    exact fun he => absurd he.symm h
  | cons kv rest ih =>
    rw [dbSet_cons]
    by_cases hk : kv.1 = s
    · rw [if_pos hk, dbGet_cons, dbGet_cons, if_neg (fun he => h he.symm), hk,
        if_neg (fun he => h (he.symm))]
    · rw [if_neg hk, dbGet_cons, dbGet_cons]
      by_cases hkt : kv.1 = t
      · rw [if_pos hkt, if_pos hkt]
      · rw [if_neg hkt, if_neg hkt, ih]

theorem dbKeys_cons (kv : String × TransactionInfo) (rest : Ledger) :
    dbKeys (kv :: rest) = kv.1 :: dbKeys rest := rfl

theorem dbKeys_dbRem_sublist (db : Ledger) (s : String) :
    (dbKeys (dbRem db s)).Sublist (dbKeys db) := by
  simp only [dbKeys, dbRem]
  exact (List.filter_sublist db).map (fun kv => kv.1)

theorem dbKeys_dbSet_of_mem (db : Ledger) (s : String) (info : TransactionInfo)
    (h : s ∈ dbKeys db) : dbKeys (dbSet db s info) = dbKeys db := by
  induction db with
  | nil => simp [dbKeys] at h
  | cons kv rest ih =>
    rw [dbSet_cons]
    by_cases hk : kv.1 = s
    · rw [if_pos hk, dbKeys_cons, dbKeys_cons, hk]
    · rw [if_neg hk, dbKeys_cons, dbKeys_cons]
      rw [dbKeys_cons] at h
      rcases List.mem_cons.1 h with he | hm
      · exact absurd he.symm hk
      · rw [ih hm]

theorem mem_dbKeys_of_dbGet (db : Ledger) (s : String) (info : TransactionInfo)
    (h : dbGet db s = some info) : s ∈ dbKeys db := by
  induction db with
  | nil => simp [dbGet_nil] at h
  | cons kv rest ih =>
    rw [dbGet_cons] at h
    rw [dbKeys_cons]
    by_cases hk : kv.1 = s
    · exact List.mem_cons.2 (Or.inl hk.symm)
    · rw [if_neg hk] at h
      exact List.mem_cons.2 (Or.inr (ih h))

theorem dbGet_isSome_of_mem_dbKeys (db : Ledger) (s : String)
    (h : s ∈ dbKeys db) : ∃ info, dbGet db s = some info := by
  induction db with
  | nil => simp [dbKeys] at h
  | cons kv rest ih =>
    rw [dbGet_cons]
    by_cases hk : kv.1 = s
    · exact ⟨kv.2, by rw [if_pos hk]⟩
    · rw [dbKeys_cons] at h
      rcases List.mem_cons.1 h with he | hm
      · exact absurd he.symm hk
      · obtain ⟨info, hi⟩ := ih hm
        exact ⟨info, by rw [if_neg hk]; exact hi⟩

theorem dbKeys_nodup_dbRem (db : Ledger) (s : String)
    (h : (dbKeys db).Nodup) : (dbKeys (dbRem db s)).Nodup :=
  (dbKeys_dbRem_sublist db s).nodup h

theorem dbKeys_nodup_dbSet (db : Ledger) (s : String) (info : TransactionInfo)
    (hmem : s ∈ dbKeys db) (h : (dbKeys db).Nodup) :
    (dbKeys (dbSet db s info)).Nodup := by
  rw [dbKeys_dbSet_of_mem db s info hmem]
  exact h

theorem dbGet_of_mem_nodup (db : Ledger) (kv : String × TransactionInfo)
    (hmem : kv ∈ db) (h : (dbKeys db).Nodup) : dbGet db kv.1 = some kv.2 := by
  induction db with
  | nil => simp at hmem
  | cons hd rest ih =>
    rw [dbKeys_cons, List.nodup_cons] at h
    rw [dbGet_cons]
    rcases List.mem_cons.1 hmem with he | hm
    · rw [he, if_pos rfl]
    · have hk : hd.1 ≠ kv.1 := by
        intro hcon
        exact h.1 (hcon ▸ List.mem_map.2 ⟨kv, hm, rfl⟩)
      rw [if_neg hk]
      exact ih hm h.2

end DbLemmas

/-- Recipients of a list of allocations, in order. -/
def recips (l : List Allocation) : List String := l.map (fun a => a.recipient)

/-- Sum of the amounts allocated to one recipient. -/
def sumFor (r : String) (l : List Allocation) : ℚ :=
  ((l.filter (fun a => a.recipient == r)).map (fun a => a.amount)).sum

/-- First-appearance deduplication of a list of recipients, the order an
insertion-ordered map yields. -/
def dedupFirst (l : List String) : List String :=
  l.foldl (fun acc r => if r ∈ acc then acc else acc ++ [r]) []

/-- One step of merge_allocations (src/tokens.rs, lines 73-85): the body of
the loop over the input, on the insertion-ordered map rendered as a list.
The entry api of the map becomes: add the amount onto the existing entry of
this recipient, or insert a fresh zero entry and add onto it. -/
def mergeStep (acc : List Allocation) (allocation : Allocation) : List Allocation :=
  if acc.any (fun b => b.recipient == allocation.recipient) then
    acc.map (fun b =>
      if b.recipient == allocation.recipient then
        { b with amount := b.amount + allocation.amount }
      else b)
  else
    acc ++ [{ recipient := allocation.recipient, amount := 0 + allocation.amount }]

/-- merge_allocations from src/tokens.rs, lines 73-85. -/
def merge_allocations (allocations : List Allocation) : List Allocation :=
  allocations.foldl mergeStep []

section MergeLemmas

theorem recips_mergeStep (acc : List Allocation) (a : Allocation) :
    recips (mergeStep acc a) =
      if a.recipient ∈ recips acc then recips acc
      else recips acc ++ [a.recipient] := by
  have hany : (acc.any (fun b => b.recipient == a.recipient) = true) ↔
      a.recipient ∈ recips acc := by
    rw [List.any_eq_true]
    constructor
    · rintro ⟨b, hb, he⟩
      exact List.mem_map.2 ⟨b, hb, by simpa using he⟩
    · rintro hm
      obtain ⟨b, hb, he⟩ := List.mem_map.1 hm
      exact ⟨b, hb, by simpa using he⟩
  unfold mergeStep
  by_cases hm : a.recipient ∈ recips acc
  · rw [if_pos (hany.2 hm), if_pos hm]
    unfold recips
    rw [List.map_map]
    apply List.map_congr_left
    intro b _
    by_cases hb : b.recipient = a.recipient
    · simp [hb]
    · simp [hb]
  · rw [if_neg (fun hc => hm (hany.1 hc)), if_neg hm]
    unfold recips
    rw [List.map_append]
    rfl

theorem recips_foldl_mergeStep (l : List Allocation) :
    ∀ acc : List Allocation,
      recips (l.foldl mergeStep acc) =
        (recips l).foldl (fun ks r => if r ∈ ks then ks else ks ++ [r]) (recips acc) := by
  induction l with
  | nil => intro acc; rfl
  | cons a rest ih =>
    intro acc
    rw [List.foldl_cons, ih (mergeStep acc a), recips_mergeStep]
    unfold recips
    rw [List.map_cons, List.foldl_cons]

theorem dedupFirst_step_nodup (l : List String) :
    ∀ acc : List String, acc.Nodup →
      (l.foldl (fun ks r => if r ∈ ks then ks else ks ++ [r]) acc).Nodup := by
  induction l with
  | nil => intro acc h; exact h
  | cons r rest ih =>
    intro acc h
    rw [List.foldl_cons]
    by_cases hm : r ∈ acc
    · rw [if_pos hm]; exact ih acc h
    · rw [if_neg hm]
      refine ih _ ?_
      simp [List.nodup_append, h, hm]

theorem sumFor_append (r : String) (l₁ l₂ : List Allocation) :
    sumFor r (l₁ ++ l₂) = sumFor r l₁ + sumFor r l₂ := by
  unfold sumFor
  rw [List.filter_append, List.map_append, List.sum_append]

theorem sumFor_cons (r : String) (a : Allocation) (l : List Allocation) :
    sumFor r (a :: l) = (if a.recipient = r then a.amount else 0) + sumFor r l := by
  unfold sumFor
  rw [List.filter_cons]
  by_cases h : a.recipient = r
  · simp [h]
  · simp [h]

theorem filter_map_update (acc : List Allocation) (q : ℚ) (t r : String) :
    (acc.map (fun b =>
        if b.recipient == t then { b with amount := b.amount + q } else b)).filter
      (fun a => a.recipient == r) =
    (acc.filter (fun a => a.recipient == r)).map (fun b =>
        if b.recipient == t then { b with amount := b.amount + q } else b) := by
  rw [List.filter_map]
  have hpred : ((fun a : Allocation => a.recipient == r) ∘ (fun b : Allocation =>
      if b.recipient == t then { b with amount := b.amount + q } else b)) =
      (fun a : Allocation => a.recipient == r) := by
    funext b
    by_cases hb : b.recipient = t
    · simp [hb]
    · simp [hb]
  rw [hpred]

theorem length_filter_eq_one (acc : List Allocation) (t : String)
    (hnd : (recips acc).Nodup) (hm : t ∈ recips acc) :
    (acc.filter (fun a => a.recipient == t)).length = 1 := by
  induction acc with
  | nil => simp [recips] at hm
  | cons b rest ih =>
    rw [recips] at hnd hm
    rw [List.map_cons, List.nodup_cons] at hnd
    rw [List.map_cons] at hm
    rw [List.filter_cons]
    by_cases hb : b.recipient = t
    · have hrest : (rest.filter (fun a => a.recipient == t)) = [] := by
        rw [List.filter_eq_nil_iff]
        intro a ha hc
        apply hnd.1
        refine List.mem_map.2 ⟨a, ha, ?_⟩
        have hat : a.recipient = t := by simpa using hc
        exact hat.trans hb.symm
      simp [hb, hrest]
    · rcases List.mem_cons.1 hm with he | hmr
      · exact absurd he.symm hb
      · have hbf : (b.recipient == t) = false := by simp [hb]
        rw [hbf]
        exact (by simpa using ih hnd.2 (by simpa [recips] using hmr))

theorem sumFor_mergeStep (acc : List Allocation) (a : Allocation) (r : String)
    (hnd : (recips acc).Nodup) :
    sumFor r (mergeStep acc a) =
      sumFor r acc + (if a.recipient = r then a.amount else 0) := by
  have hany : (acc.any (fun b => b.recipient == a.recipient) = true) ↔
      a.recipient ∈ recips acc := by
    rw [List.any_eq_true]
    constructor
    · rintro ⟨b, hb, he⟩
      exact List.mem_map.2 ⟨b, hb, by simpa using he⟩
    · rintro hm
      obtain ⟨b, hb, he⟩ := List.mem_map.1 hm
      exact ⟨b, hb, by simpa using he⟩
  unfold mergeStep
  by_cases hm : a.recipient ∈ recips acc
  · rw [if_pos (hany.2 hm)]
    unfold sumFor
    rw [filter_map_update]
    by_cases hr : a.recipient = r
    · subst hr
      have hl := length_filter_eq_one acc a.recipient hnd hm
      rcases hfe : acc.filter (fun x => x.recipient == a.recipient) with _ | ⟨b, tl⟩
      · rw [hfe] at hl; simp at hl
      · rw [hfe] at hl
        simp only [List.length_cons] at hl
        have htl : tl = [] := List.length_eq_zero.1 (by omega)
        subst htl
        have hbrec : b.recipient = a.recipient := by
          have hbm : b ∈ acc.filter (fun x => x.recipient == a.recipient) := by
            rw [hfe]; exact List.mem_cons_self b []
          simpa using List.of_mem_filter hbm
        rw [hfe]
        simp [hbrec]
    · have hfix : ∀ b ∈ acc.filter (fun x => x.recipient == r),
          (if b.recipient == a.recipient then
            { b with amount := b.amount + a.amount } else b) = b := by
        intro b hb
        have hbr : b.recipient = r := by
          simpa using List.of_mem_filter hb
        have hne : (b.recipient == a.recipient) = false := by
          simp [hbr]
          exact fun hc => hr hc.symm
        simp [hne]
      rw [List.map_congr_left hfix]
      simp [hr]
  · rw [if_neg (fun hc => hm (hany.1 hc)), sumFor_append, sumFor_cons]
    simp [sumFor]

theorem recips_nodup_mergeStep (acc : List Allocation) (a : Allocation)
    (hnd : (recips acc).Nodup) : (recips (mergeStep acc a)).Nodup := by
  rw [recips_mergeStep]
  by_cases hm : a.recipient ∈ recips acc
  · rw [if_pos hm]; exact hnd
  · rw [if_neg hm]
    simp [List.nodup_append, hnd, hm]

theorem sumFor_foldl_mergeStep (l : List Allocation) :
    ∀ acc : List Allocation, (recips acc).Nodup → ∀ r : String,
      sumFor r (l.foldl mergeStep acc) = sumFor r acc + sumFor r l := by
  induction l with
  | nil => intro acc _ r; simp [sumFor]
  | cons a rest ih =>
    intro acc hnd r
    rw [List.foldl_cons,
      ih (mergeStep acc a) (recips_nodup_mergeStep acc a hnd) r,
      sumFor_mergeStep acc a r hnd, sumFor_cons]
    ring

end MergeLemmas

/-- C10: merge_allocations returns pairwise-distinct recipients, in
first-appearance order, and preserves each recipient total. -/
theorem C10_merge_totals_and_order (l : List Allocation) :
    (recips (merge_allocations l)).Nodup ∧
    recips (merge_allocations l) = dedupFirst (recips l) ∧
    ∀ r : String, sumFor r (merge_allocations l) = sumFor r l := by
  have horder : recips (merge_allocations l) = dedupFirst (recips l) := by
    unfold merge_allocations dedupFirst
    rw [recips_foldl_mergeStep l []]
    rfl
  refine ⟨?_, horder, ?_⟩
  · rw [horder]
    exact dedupFirst_step_nodup (recips l) [] List.nodup_nil
  · intro r
    have := sumFor_foldl_mergeStep l [] (by simp [recips]) r
    unfold merge_allocations
    rw [this]
    simp [sumFor]

/-- Sum of the amounts of the historical records of one recipient. -/
def histSumFor (r : String) (infos : List TransactionInfo) : ℚ :=
  ((infos.filter (fun t => t.recipient == r)).map (fun t => t.amount)).sum

/-- Inner loop of apply_previous_transactions (src/tokens.rs, lines 91-105):
scan the allocation rows in order, skip other recipients, subtract and stop
once a row covers the remaining amount, otherwise zero the row and carry the
remainder to the next matching row. -/
def deductOne : List Allocation → String → ℚ → List Allocation
  | [], _, _ => []
  | a :: rest, recipient, amount =>
    if a.recipient ≠ recipient then a :: deductOne rest recipient amount
    else if amount ≤ a.amount then { a with amount := a.amount - amount } :: rest
    else { a with amount := 0 } :: deductOne rest recipient (amount - a.amount)

/-- Outer loop of apply_previous_transactions: deduct every historical
record, in sequence. -/
def deductAll (allocations : List Allocation)
    (transaction_infos : List TransactionInfo) : List Allocation :=
  transaction_infos.foldl
    (fun allocs info => deductOne allocs info.recipient info.amount) allocations

/-- apply_previous_transactions from src/tokens.rs, lines 87-107: deduct the
history, then retain only the rows holding more than the 0.5-token epsilon
(written mkRat 1 2, the exact rational one half). -/
def apply_previous_transactions (allocations : List Allocation)
    (transaction_infos : List TransactionInfo) : List Allocation :=
  (deductAll allocations transaction_infos).filter (fun x => mkRat 1 2 < x.amount)

theorem epsilon_eq_half : mkRat 1 2 = (1 : ℚ)/2 := by
  rw [Rat.mkRat_eq_div]
  norm_num

section DeductLemmas

theorem sumFor_nonneg (r : String) (l : List Allocation)
    (h : ∀ x ∈ l, 0 ≤ x.amount) : 0 ≤ sumFor r l := by
  unfold sumFor
  apply List.sum_nonneg
  intro q hq
  obtain ⟨a, ha, rfl⟩ := List.mem_map.1 hq
  exact h a (List.mem_filter.1 ha).1

theorem histSumFor_nonneg (r : String) (infos : List TransactionInfo)
    (h : ∀ t ∈ infos, 0 ≤ t.amount) : 0 ≤ histSumFor r infos := by
  unfold histSumFor
  apply List.sum_nonneg
  intro q hq
  obtain ⟨t, ht, rfl⟩ := List.mem_map.1 hq
  exact h t (List.mem_filter.1 ht).1

theorem histSumFor_cons (r : String) (t : TransactionInfo)
    (infos : List TransactionInfo) :
    histSumFor r (t :: infos) =
      (if t.recipient = r then t.amount else 0) + histSumFor r infos := by
  unfold histSumFor
  rw [List.filter_cons]
  by_cases h : t.recipient = r
  · simp [h]
  · simp [h]

theorem deductOne_recips (l : List Allocation) (rec : String) (amt : ℚ) :
    recips (deductOne l rec amt) = recips l := by
  induction l generalizing amt with
  | nil => rfl
  | cons a rest ih =>
    unfold deductOne
    by_cases ha : a.recipient ≠ rec
    · rw [if_pos ha]
      unfold recips at ih ⊢
      rw [List.map_cons, List.map_cons, ih]
    · rw [if_neg ha]
      rw [not_not] at ha
      by_cases hc : amt ≤ a.amount
      · rw [if_pos hc]
        unfold recips
        rw [List.map_cons, List.map_cons]
      · rw [if_neg hc]
        unfold recips at ih ⊢
        rw [List.map_cons, List.map_cons, ih]

theorem deductOne_nonneg (l : List Allocation) (rec : String) (amt : ℚ)
    (hl : ∀ x ∈ l, 0 ≤ x.amount) (hamt : 0 ≤ amt) :
    ∀ x ∈ deductOne l rec amt, 0 ≤ x.amount := by
  induction l generalizing amt with
  | nil => intro x hx; simp [deductOne] at hx
  | cons a rest ih =>
    intro x hx
    unfold deductOne at hx
    by_cases ha : a.recipient ≠ rec
    · rw [if_pos ha] at hx
      rcases List.mem_cons.1 hx with he | hm
      · exact he ▸ hl a (List.mem_cons_self a rest)
      · exact ih amt (fun y hy => hl y (List.mem_cons_of_mem a hy)) hamt x hm
    · rw [if_neg ha] at hx
      by_cases hc : amt ≤ a.amount
      · rw [if_pos hc] at hx
        rcases List.mem_cons.1 hx with he | hm
        · rw [he]
          simpa using sub_nonneg.2 hc
        · exact hl x (List.mem_cons_of_mem a hm)
      · rw [if_neg hc] at hx
        rcases List.mem_cons.1 hx with he | hm
        · rw [he]
        · refine ih (amt - a.amount) (fun y hy => hl y (List.mem_cons_of_mem a hy)) ?_ x hm
          have : a.amount < amt := lt_of_not_le hc
          linarith

theorem deductOne_sumFor_other (l : List Allocation) (rec : String) (amt : ℚ)
    (r : String) (hr : r ≠ rec) :
    sumFor r (deductOne l rec amt) = sumFor r l := by
  induction l generalizing amt with
  | nil => rfl
  | cons a rest ih =>
    unfold deductOne
    by_cases ha : a.recipient ≠ rec
    · rw [if_pos ha, sumFor_cons, sumFor_cons, ih]
    · rw [if_neg ha]
      rw [not_not] at ha
      have hne : a.recipient ≠ r := by rw [ha]; exact fun he => hr he.symm
      by_cases hc : amt ≤ a.amount
      · rw [if_pos hc, sumFor_cons, sumFor_cons]
        simp [hne]
      · rw [if_neg hc, sumFor_cons, sumFor_cons, ih]
        simp [hne]

theorem deductOne_sumFor_self (l : List Allocation) (rec : String) (amt : ℚ)
    (hl : ∀ x ∈ l, 0 ≤ x.amount) (hamt : 0 ≤ amt) :
    sumFor rec (deductOne l rec amt) = max 0 (sumFor rec l - amt) := by
  induction l generalizing amt with
  | nil =>
    simp [deductOne, sumFor]
    linarith
  | cons a rest ih =>
    have hrest : ∀ x ∈ rest, 0 ≤ x.amount :=
      fun y hy => hl y (List.mem_cons_of_mem a hy)
    unfold deductOne
    by_cases ha : a.recipient ≠ rec
    · rw [if_pos ha, sumFor_cons, sumFor_cons, ih amt hrest hamt]
      simp [ha]
    · rw [if_neg ha]
      rw [not_not] at ha
      by_cases hc : amt ≤ a.amount
      · rw [if_pos hc, sumFor_cons, sumFor_cons]
        have h1 : 0 ≤ sumFor rec rest := sumFor_nonneg rec rest hrest
        have h2 : 0 ≤ a.amount - amt := sub_nonneg.2 hc
        have e1 : ({ a with amount := a.amount - amt } : Allocation).recipient = rec := ha
        rw [if_pos e1, if_pos ha, max_eq_right (by linarith)]
        ring
      · rw [if_neg hc, sumFor_cons, sumFor_cons]
        have hlt : a.amount < amt := lt_of_not_le hc
        rw [ih (amt - a.amount) hrest (by linarith)]
        have e1 : ({ a with amount := (0 : ℚ) } : Allocation).recipient = rec := ha
        rw [if_pos e1, if_pos ha, zero_add]
        congr 1
        ring

theorem deductAll_nonneg (infos : List TransactionInfo) :
    ∀ l : List Allocation, (∀ x ∈ l, 0 ≤ x.amount) →
      (∀ t ∈ infos, 0 ≤ t.amount) →
      ∀ x ∈ deductAll l infos, 0 ≤ x.amount := by
  induction infos with
  | nil => intro l hl _ x hx; exact hl x hx
  | cons t rest ih =>
    intro l hl hinfos x hx
    unfold deductAll at hx
    rw [List.foldl_cons] at hx
    exact ih (deductOne l t.recipient t.amount)
      (deductOne_nonneg l t.recipient t.amount hl
        (hinfos t (List.mem_cons_self t rest)))
      (fun y hy => hinfos y (List.mem_cons_of_mem t hy)) x hx

theorem deductAll_recips (infos : List TransactionInfo) :
    ∀ l : List Allocation, recips (deductAll l infos) = recips l := by
  induction infos with
  | nil => intro l; rfl
  | cons t rest ih =>
    intro l
    unfold deductAll at ih ⊢
    rw [List.foldl_cons, ih, deductOne_recips]

theorem max_zero_sub_comp (x b : ℚ) (hb : 0 ≤ b) :
    max 0 (max 0 x - b) = max 0 (x - b) := by
  rcases le_total x 0 with h | h
  · rw [max_eq_left h, max_eq_left (by linarith), max_eq_left (by linarith)]
  · rw [max_eq_right h]

theorem deductAll_sumFor (infos : List TransactionInfo) :
    ∀ l : List Allocation, (∀ x ∈ l, 0 ≤ x.amount) →
      (∀ t ∈ infos, 0 ≤ t.amount) → ∀ r : String,
      sumFor r (deductAll l infos) = max 0 (sumFor r l - histSumFor r infos) := by
  induction infos with
  | nil =>
    intro l hl _ r
    unfold deductAll
    rw [List.foldl_nil]
    have := sumFor_nonneg r l hl
    simp [histSumFor]
    linarith
  | cons t rest ih =>
    intro l hl hinfos r
    have ht : 0 ≤ t.amount := hinfos t (List.mem_cons_self t rest)
    have hrest : ∀ u ∈ rest, 0 ≤ u.amount :=
      fun u hu => hinfos u (List.mem_cons_of_mem t hu)
    unfold deductAll
    rw [List.foldl_cons]
    have hstep := ih (deductOne l t.recipient t.amount)
      (deductOne_nonneg l t.recipient t.amount hl ht) hrest r
    unfold deductAll at hstep
    rw [hstep, histSumFor_cons]
    by_cases hr : t.recipient = r
    · rw [if_pos hr, hr] at *
      rw [deductOne_sumFor_self l r t.amount hl ht,
        max_zero_sub_comp _ _ (histSumFor_nonneg r rest hrest)]
      congr 1
      ring
    · rw [if_neg hr, deductOne_sumFor_other l t.recipient t.amount r
        (fun he => hr he.symm), zero_add]

end DeductLemmas

/-- C2: after deducting the history in sequence order, the remaining total
of every recipient equals max 0 of the requested total minus the historical
total (exactly, on the rational model), the row structure per recipient is
unchanged, and the final retain drops exactly the rows at or below the
0.5-token epsilon. -/
theorem C2_reconciliation_correctness (allocations : List Allocation)
    (infos : List TransactionInfo)
    (hA : ∀ a ∈ allocations, 0 ≤ a.amount)
    (hH : ∀ t ∈ infos, 0 ≤ t.amount) :
    (∀ r : String, sumFor r (deductAll allocations infos) =
        max 0 (sumFor r allocations - histSumFor r infos)) ∧
    recips (deductAll allocations infos) = recips allocations ∧
    (∀ a : Allocation, a ∈ apply_previous_transactions allocations infos ↔
        a ∈ deductAll allocations infos ∧ mkRat 1 2 < a.amount) := by
  refine ⟨deductAll_sumFor infos allocations hA hH,
    deductAll_recips infos allocations, ?_⟩
  intro a
  unfold apply_previous_transactions
  rw [List.mem_filter]
  constructor
  · rintro ⟨h1, h2⟩
    exact ⟨h1, by simpa using h2⟩
  · rintro ⟨h1, h2⟩
    exact ⟨h1, by simpa using h2⟩

/-- Concrete instance of the C2 theorem: two rows for one recipient, one
historical record, exact totals and the epsilon retain. -/
theorem C2_reconciliation_correctness_witness :
    (∀ a ∈ [Allocation.mk "alice" 3, Allocation.mk "bob" 2,
        Allocation.mk "alice" 4], (0 : ℚ) ≤ a.amount) ∧
    (∀ t ∈ [TransactionInfo.mk "alice" 5 "" true "bh"], (0 : ℚ) ≤ t.amount) ∧
    ((∀ r : String, sumFor r (deductAll
          [Allocation.mk "alice" 3, Allocation.mk "bob" 2, Allocation.mk "alice" 4]
          [TransactionInfo.mk "alice" 5 "" true "bh"]) =
        max 0 (sumFor r
            [Allocation.mk "alice" 3, Allocation.mk "bob" 2, Allocation.mk "alice" 4] -
          histSumFor r [TransactionInfo.mk "alice" 5 "" true "bh"])) ∧
    recips (deductAll
        [Allocation.mk "alice" 3, Allocation.mk "bob" 2, Allocation.mk "alice" 4]
        [TransactionInfo.mk "alice" 5 "" true "bh"]) =
      recips [Allocation.mk "alice" 3, Allocation.mk "bob" 2, Allocation.mk "alice" 4] ∧
    (∀ a : Allocation, a ∈ apply_previous_transactions
          [Allocation.mk "alice" 3, Allocation.mk "bob" 2, Allocation.mk "alice" 4]
          [TransactionInfo.mk "alice" 5 "" true "bh"] ↔
        a ∈ deductAll
            [Allocation.mk "alice" 3, Allocation.mk "bob" 2, Allocation.mk "alice" 4]
            [TransactionInfo.mk "alice" 5 "" true "bh"] ∧ mkRat 1 2 < a.amount)) :=
  ⟨by decide, by decide,
    C2_reconciliation_correctness
      [Allocation.mk "alice" 3, Allocation.mk "bob" 2, Allocation.mk "alice" 4]
      [TransactionInfo.mk "alice" 5 "" true "bh"]
      (by decide) (by decide)⟩

/-- Outcome of one record in a poll cycle: the record as it remains in the
ledger after its update step, or none when the step removes it. -/
def recordStep (recent : List String) (bh : String)
    (st : Option TransactionStatus) (info : TransactionInfo) :
    Option TransactionInfo :=
  match st with
  | none => if recent.contains bh then some info else none
  | some t =>
    match t.confirmations with
    | some _ => some info
    | none => if t.statusOk then some { info with finalized := true } else none

/-- Ledger after the update step of one record, given the record stored
under the signature. -/
def dbStep (db : Ledger) (signature : String) (recent : List String)
    (bh : String) (st : Option TransactionStatus) (info : TransactionInfo) :
    Ledger :=
  match st with
  | none => if recent.contains bh then db else dbRem db signature
  | some t =>
    match t.confirmations with
    | some _ => db
    | none =>
      if t.statusOk then dbSet db signature { info with finalized := true }
      else dbRem db signature

/-- Confirmation count one record reports in a poll cycle: 0 for an unknown
status with a still-valid blockhash, the confirmation count of a known
status, none when the record is removed or finalized. -/
def reported_confirmations (recent : List String) (bh : String)
    (st : Option TransactionStatus) : Option Nat :=
  match st with
  | none => if recent.contains bh then some 0 else none
  | some t => t.confirmations

/-- Aggregation of the reported confirmation counts
(src/tokens.rs, line 515): confirmations = Some(min(confs, acc or MAX)). -/
def combineConf (acc : Option Nat) (r : Option Nat) : Option Nat :=
  match r with
  | none => acc
  | some c =>
    match acc with
    | none => some c
    | some c0 => some (min c c0)

/-- Pending records of the ledger: signature and stored blockhash of every
non-finalized record, in iteration order (src/tokens.rs, lines 486-495). -/
def pendingPairsOf (db : Ledger) : List (String × String) :=
  (db.filter (fun kv => !kv.2.finalized)).map (fun kv => (kv.1, kv.2.blockhash))

/-- Loop of update_finalized_transactions over the zipped pending pairs and
fetched statuses (src/tokens.rs, lines 503-517). -/
def pollFold (recent : List String) :
    Ledger × Option Nat → List ((String × String) × Option TransactionStatus) →
    Option (Ledger × Option Nat)
  | acc, [] => some acc
  | (db, conf), p :: rest =>
    match update_finalized_transaction db p.1.1 p.2 p.1.2 recent with
    | none => none
    | some (db1, r) => pollFold recent (db1, combineConf conf r) rest

/-- update_finalized_transactions from src/tokens.rs, lines 481-519, with
the vector of fetched statuses a parameter. -/
def update_finalized_transactions (db : Ledger)
    (transaction_statuses : List (Option TransactionStatus))
    (recent_blockhashes : List String) : Option (Ledger × Option Nat) :=
  pollFold recent_blockhashes (db, none)
    ((pendingPairsOf db).zip transaction_statuses)

section PollLemmas

theorem update_step_eq (db : Ledger) (sig : String)
    (st : Option TransactionStatus) (bh : String) (recent : List String)
    (info : TransactionInfo) (hget : dbGet db sig = some info) :
    update_finalized_transaction db sig st bh recent =
      some (dbStep db sig recent bh st info,
        reported_confirmations recent bh st) := by
  cases st with
  | none =>
    by_cases hc : bh ∈ recent
    · simp [update_finalized_transaction, dbStep, reported_confirmations, hc]
    · simp [update_finalized_transaction, dbStep, reported_confirmations, hc]
  | some t =>
    obtain ⟨tc, tok⟩ := t
    cases tc with
    | some c => simp [update_finalized_transaction, dbStep, reported_confirmations]
    | none =>
      cases tok with
      | false => simp [update_finalized_transaction, dbStep, reported_confirmations]
      | true =>
        simp [update_finalized_transaction, dbStep, reported_confirmations, hget]

theorem dbGet_dbStep_self (db : Ledger) (sig : String) (recent : List String)
    (bh : String) (st : Option TransactionStatus) (info : TransactionInfo)
    (hget : dbGet db sig = some info) :
    dbGet (dbStep db sig recent bh st info) sig = recordStep recent bh st info := by
  cases st with
  | none =>
    by_cases hc : bh ∈ recent
    · simp [dbStep, recordStep, hc, hget]
    · simp [dbStep, recordStep, hc, dbGet_dbRem_self]
  | some t =>
    obtain ⟨tc, tok⟩ := t
    cases tc with
    | some c => simp [dbStep, recordStep, hget]
    | none =>
      cases tok with
      | false => simp [dbStep, recordStep, dbGet_dbRem_self]
      | true => simp [dbStep, recordStep, dbGet_dbSet_self]

theorem dbGet_dbStep_other (db : Ledger) (sig : String) (recent : List String)
    (bh : String) (st : Option TransactionStatus) (info : TransactionInfo)
    (s : String) (hs : s ≠ sig) :
    dbGet (dbStep db sig recent bh st info) s = dbGet db s := by
  cases st with
  | none =>
    by_cases hc : bh ∈ recent
    · simp [dbStep, hc]
    · simp [dbStep, hc, dbGet_dbRem_other db sig s hs]
  | some t =>
    obtain ⟨tc, tok⟩ := t
    cases tc with
    | some c => simp [dbStep]
    | none =>
      cases tok with
      | false => simp [dbStep, dbGet_dbRem_other db sig s hs]
      | true => simp [dbStep, dbGet_dbSet_other db sig s _ hs]

theorem dbStep_keys_nodup (db : Ledger) (sig : String) (recent : List String)
    (bh : String) (st : Option TransactionStatus) (info : TransactionInfo)
    (hget : dbGet db sig = some info) (hnd : (dbKeys db).Nodup) :
    (dbKeys (dbStep db sig recent bh st info)).Nodup := by
  have hmem : sig ∈ dbKeys db := mem_dbKeys_of_dbGet db sig info hget
  cases st with
  | none =>
    by_cases hc : bh ∈ recent
    · simpa [dbStep, hc] using hnd
    · simpa [dbStep, hc] using dbKeys_nodup_dbRem db sig hnd
  | some t =>
    obtain ⟨tc, tok⟩ := t
    cases tc with
    | some c => simpa [dbStep] using hnd
    | none =>
      cases tok with
      | false => simpa [dbStep] using dbKeys_nodup_dbRem db sig hnd
      | true => simpa [dbStep] using dbKeys_nodup_dbSet db sig _ hmem hnd

theorem dbStep_keys_subset (db : Ledger) (sig : String) (recent : List String)
    (bh : String) (st : Option TransactionStatus) (info : TransactionInfo)
    (hget : dbGet db sig = some info) :
    ∀ s, s ∈ dbKeys (dbStep db sig recent bh st info) → s ∈ dbKeys db := by
  have hmem : sig ∈ dbKeys db := mem_dbKeys_of_dbGet db sig info hget
  intro s
  cases st with
  | none =>
    have he : dbStep db sig recent bh none info =
        (if recent.contains bh = true then db else dbRem db sig) := rfl
    by_cases hc : recent.contains bh = true
    · rw [he, if_pos hc]
      exact fun h => h
    · rw [he, if_neg hc]
      exact fun h => (dbKeys_dbRem_sublist db sig).subset h
  | some t =>
    obtain ⟨tc, tok⟩ := t
    cases tc with
    | some c => simp [dbStep]
    | none =>
      cases tok with
      | false =>
        intro h
        exact (dbKeys_dbRem_sublist db sig).subset (by simpa [dbStep] using h)
      | true =>
        intro h
        rw [show dbStep db sig recent bh (some ⟨none, true⟩) info =
            dbSet db sig { info with finalized := true } from rfl,
          dbKeys_dbSet_of_mem db sig _ hmem] at h
        exact h

theorem pollFold_spec (recent : List String) :
    ∀ (pairs : List ((String × String) × Option TransactionStatus))
      (db : Ledger) (conf0 : Option Nat),
      (dbKeys db).Nodup →
      (pairs.map (fun p => p.1.1)).Nodup →
      (∀ p ∈ pairs, ∃ info, dbGet db p.1.1 = some info) →
      ∃ db1, pollFold recent (db, conf0) pairs =
          some (db1,
            (pairs.map (fun p => reported_confirmations recent p.1.2 p.2)).foldl
              combineConf conf0) ∧
        (∀ s, s ∉ pairs.map (fun p => p.1.1) → dbGet db1 s = dbGet db s) ∧
        (∀ p ∈ pairs, dbGet db1 p.1.1 =
          (dbGet db p.1.1).bind (recordStep recent p.1.2 p.2)) ∧
        (dbKeys db1).Nodup ∧
        (∀ s, s ∈ dbKeys db1 → s ∈ dbKeys db) := by
  intro pairs
  induction pairs with
  | nil =>
    intro db conf0 hnd _ _
    exact ⟨db, rfl, fun s _ => rfl, fun p hp => absurd hp (by simp), hnd,
      fun s h => h⟩
  | cons p rest ih =>
    intro db conf0 hnd hpnd hsome
    obtain ⟨info, hget⟩ := hsome p (List.mem_cons_self p rest)
    rw [List.map_cons, List.nodup_cons] at hpnd
    have hstep := update_step_eq db p.1.1 p.2 p.1.2 recent info hget
    have hcur : pollFold recent (db, conf0) (p :: rest) =
        pollFold recent (dbStep db p.1.1 recent p.1.2 p.2 info,
          combineConf conf0 (reported_confirmations recent p.1.2 p.2)) rest := by
      show (match update_finalized_transaction db p.1.1 p.2 p.1.2 recent with
        | none => none
        | some (db1, r) => pollFold recent (db1, combineConf conf0 r) rest) = _
      rw [hstep]
    have hnd1 := dbStep_keys_nodup db p.1.1 recent p.1.2 p.2 info hget hnd
    have hother : ∀ q ∈ rest, dbGet
        (dbStep db p.1.1 recent p.1.2 p.2 info) q.1.1 = dbGet db q.1.1 := by
      intro q hq
      refine dbGet_dbStep_other db p.1.1 recent p.1.2 p.2 info q.1.1 ?_
      intro hcon
      exact hpnd.1 (hcon ▸ List.mem_map.2 ⟨q, hq, rfl⟩)
    have hsome1 : ∀ q ∈ rest, ∃ i,
        dbGet (dbStep db p.1.1 recent p.1.2 p.2 info) q.1.1 = some i := by
      intro q hq
      obtain ⟨i, hi⟩ := hsome q (List.mem_cons_of_mem p hq)
      exact ⟨i, (hother q hq).trans hi⟩
    obtain ⟨db1, hfold, hout, hin, hnd2, hsub⟩ :=
      ih (dbStep db p.1.1 recent p.1.2 p.2 info)
        (combineConf conf0 (reported_confirmations recent p.1.2 p.2))
        hnd1 hpnd.2 hsome1
    refine ⟨db1, ?_, ?_, ?_, hnd2, ?_⟩
    · rw [hcur, hfold, List.map_cons, List.foldl_cons]
    · intro s hs
      rw [List.map_cons, List.mem_cons, not_or] at hs
      rw [hout s hs.2,
        dbGet_dbStep_other db p.1.1 recent p.1.2 p.2 info s hs.1]
    · intro q hq
      rcases List.mem_cons.1 hq with he | hm
      · subst he
        have hq1 : q.1.1 ∉ rest.map (fun x => x.1.1) := hpnd.1
        rw [hout q.1.1 hq1,
          dbGet_dbStep_self db q.1.1 recent q.1.2 q.2 info hget, hget]
        rfl
      · rw [hin q hm, hother q hm]
    · intro s hs
      exact dbStep_keys_subset db p.1.1 recent p.1.2 p.2 info hget s (hsub s hs)

theorem mem_of_dbGet (db : Ledger) (sig : String) (v : TransactionInfo)
    (h : dbGet db sig = some v) : (sig, v) ∈ db := by
  unfold dbGet at h
  obtain ⟨kv, hfind, hsnd⟩ := Option.map_eq_some'.1 h
  have h1 : kv.1 = sig := by simpa using List.find?_some hfind
  have h2 : kv = (sig, v) := by
    obtain ⟨ka, kb⟩ := kv
    simp at h1 hsnd
    rw [h1, hsnd]
  exact h2 ▸ List.mem_of_find?_eq_some hfind

theorem pendingPairs_mem (db : Ledger) (hnd : (dbKeys db).Nodup)
    (sig bh : String) :
    (sig, bh) ∈ pendingPairsOf db ↔
      ∃ v, dbGet db sig = some v ∧ v.finalized = false ∧ bh = v.blockhash := by
  constructor
  · intro h
    obtain ⟨kv, hkv, he⟩ := List.mem_map.1 h
    obtain ⟨hkdb, hfin⟩ := List.mem_filter.1 hkv
    have h1 : kv.1 = sig := congrArg Prod.fst he
    have h2 : kv.2.blockhash = bh := congrArg Prod.snd he
    refine ⟨kv.2, ?_, by simpa using hfin, h2.symm⟩
    rw [← h1]
    exact dbGet_of_mem_nodup db kv hkdb hnd
  · rintro ⟨v, hget, hfin, rfl⟩
    refine List.mem_map.2 ⟨(sig, v),
      List.mem_filter.2 ⟨mem_of_dbGet db sig v hget, ?_⟩, rfl⟩
    simpa using hfin

theorem zip_sigs_sublist :
    ∀ (A : List (String × String)) (B : List (Option TransactionStatus)),
    ((A.zip B).map (fun p => p.1.1)).Sublist (A.map Prod.fst) := by
  intro A
  induction A with
  | nil => intro B; simp
  | cons x A ih =>
    intro B
    cases B with
    | nil => simp
    | cons y B =>
      rw [List.zip_cons_cons, List.map_cons, List.map_cons]
      exact List.Sublist.cons₂ _ (ih B)

theorem pendingPairs_fst_sublist (db : Ledger) :
    ((pendingPairsOf db).map Prod.fst).Sublist (dbKeys db) := by
  unfold pendingPairsOf dbKeys
  rw [List.map_map]
  exact (List.filter_sublist db).map _

theorem exists_zip_pair {α β : Type} :
    ∀ (A : List α) (B : List β) (a : α),
      A.length ≤ B.length → a ∈ A → ∃ b, (a, b) ∈ A.zip B := by
  intro A
  induction A with
  | nil => intro B a _ ha; simp at ha
  | cons x A ih =>
    intro B a hlen ha
    cases B with
    | nil => simp at hlen
    | cons y B =>
      rcases List.mem_cons.1 ha with he | hm
      · subst he
        exact ⟨y, by rw [List.zip_cons_cons]; exact List.mem_cons_self _ _⟩
      · have hlen' : A.length ≤ B.length := by
          simp [List.length_cons] at hlen
          omega
        obtain ⟨b, hb⟩ := ih B a hlen' hm
        exact ⟨b, by rw [List.zip_cons_cons]; exact List.mem_cons_of_mem _ hb⟩

theorem foldl_min_assoc : ∀ (l : List ℕ) (a b : ℕ),
    l.foldl min (min a b) = min a (l.foldl min b) := by
  intro l
  induction l with
  | nil => intro a b; rfl
  | cons c l ih =>
    intro a b
    rw [List.foldl_cons, List.foldl_cons, min_assoc, ih]

theorem min?_cons_eq (a : ℕ) (l : List ℕ) :
    (a :: l).min? = some (l.foldl min a) := by
  simp [List.min?]

theorem min?_eq_none_iff_nil (l : List ℕ) : l.min? = none ↔ l = [] := by
  cases l with
  | nil => simp [List.min?]
  | cons a t => simp [List.min?]

theorem reduceOption_nil_iff {α : Type} : ∀ l : List (Option α),
    l.reduceOption = [] ↔ ∀ x ∈ l, x = none := by
  intro l
  induction l with
  | nil => simp
  | cons o l ih =>
    cases o with
    | none => simpa [List.reduceOption] using ih
    | some d => simp [List.reduceOption]

theorem foldl_combineConf_some : ∀ (l : List (Option ℕ)) (c : ℕ),
    l.foldl combineConf (some c) = some ((l.reduceOption).foldl min c) := by
  intro l
  induction l with
  | nil => intro c; rfl
  | cons o l ih =>
    intro c
    cases o with
    | none =>
      rw [List.foldl_cons]
      simpa [List.reduceOption, combineConf] using ih c
    | some d =>
      rw [List.foldl_cons, show combineConf (some c) (some d) = some (min d c) from rfl,
        ih (min d c)]
      have hro : (some d :: l).reduceOption = d :: l.reduceOption := by
        simp [List.reduceOption]
      rw [hro, List.foldl_cons, min_comm d c]

theorem foldl_combineConf_none : ∀ l : List (Option ℕ),
    l.foldl combineConf none = (l.reduceOption).min? := by
  intro l
  induction l with
  | nil => rfl
  | cons o l ih =>
    cases o with
    | none =>
      rw [List.foldl_cons]
      simpa [List.reduceOption, combineConf] using ih
    | some d =>
      rw [List.foldl_cons, show combineConf none (some d) = some d from rfl,
        foldl_combineConf_some l d]
      have hro : (some d :: l).reduceOption = d :: l.reduceOption := by
        simp [List.reduceOption]
      rw [hro, min?_cons_eq]

theorem recordStep_pending_iff (recent : List String) (bh : String)
    (st : Option TransactionStatus) (v : TransactionInfo)
    (hv : v.finalized = false) :
    (reported_confirmations recent bh st).isSome = true ↔
      ∃ v1, recordStep recent bh st v = some v1 ∧ v1.finalized = false := by
  cases st with
  | none =>
    by_cases hc : bh ∈ recent
    · simp [reported_confirmations, recordStep, hc, hv]
    · simp [reported_confirmations, recordStep, hc]
  | some t =>
    obtain ⟨tc, tok⟩ := t
    cases tc with
    | some c => simp [reported_confirmations, recordStep, hv]
    | none =>
      cases tok with
      | false => simp [reported_confirmations, recordStep]
      | true => simp [reported_confirmations, recordStep]

theorem recordStep_of_reported_none (recent : List String) (bh : String)
    (st : Option TransactionStatus) (v : TransactionInfo)
    (h : reported_confirmations recent bh st = none) :
    recordStep recent bh st v = none ∨
      recordStep recent bh st v = some { v with finalized := true } := by
  cases st with
  | none =>
    by_cases hc : bh ∈ recent
    · simp [reported_confirmations, hc] at h
    · left
      simp [recordStep, hc]
  | some t =>
    obtain ⟨tc, tok⟩ := t
    cases tc with
    | some c => simp [reported_confirmations] at h
    | none =>
      cases tok with
      | false =>
        left
        simp [recordStep]
      | true =>
        right
        simp [recordStep]

end PollLemmas

/-- C4: a finalized record is skipped by the poll cycle: it keeps exactly
its record, never mutated and never removed, whatever statuses the client
returns. -/
theorem C4_finalized_monotonic (db : Ledger)
    (statuses : List (Option TransactionStatus)) (recent : List String)
    (hnd : (dbKeys db).Nodup) (sig : String) (info : TransactionInfo)
    (hget : dbGet db sig = some info) (hfin : info.finalized = true) :
    ∃ db1 r, update_finalized_transactions db statuses recent = some (db1, r) ∧
      dbGet db1 sig = some info := by
  have hsubl := zip_sigs_sublist (pendingPairsOf db) statuses
  have hsub2 := pendingPairs_fst_sublist db
  have hpnd : (((pendingPairsOf db).zip statuses).map (fun p => p.1.1)).Nodup :=
    (hsubl.trans hsub2).nodup hnd
  have hsome : ∀ p ∈ (pendingPairsOf db).zip statuses,
      ∃ i, dbGet db p.1.1 = some i := by
    rintro ⟨⟨pa, pb⟩, pst⟩ hp
    have hp1 : (pa, pb) ∈ pendingPairsOf db := (List.of_mem_zip hp).1
    obtain ⟨v, hv, _, _⟩ := (pendingPairs_mem db hnd pa pb).1 hp1
    exact ⟨v, hv⟩
  obtain ⟨db1, hfold, hout, hin, hnd1, hsubk⟩ :=
    pollFold_spec recent ((pendingPairsOf db).zip statuses) db none hnd hpnd hsome
  have hnot : sig ∉ ((pendingPairsOf db).zip statuses).map (fun p => p.1.1) := by
    intro hmem
    have hmem2 : sig ∈ (pendingPairsOf db).map Prod.fst := hsubl.subset hmem
    obtain ⟨q, hq, he⟩ := List.mem_map.1 hmem2
    obtain ⟨qa, qb⟩ := q
    simp at he
    subst he
    obtain ⟨v, hv, hvf, _⟩ := (pendingPairs_mem db hnd qa qb).1 hq
    rw [hget] at hv
    injection hv with hvi
    rw [← hvi, hfin] at hvf
    simp at hvf
  refine ⟨db1, _, hfold, ?_⟩
  rw [hout sig hnot]
  exact hget

/-- Concrete instance of the C4 theorem: a ledger with one finalized and
one pending record; after a poll cycle that discards the pending record,
the finalized record is still present, unchanged. -/
theorem C4_finalized_monotonic_witness :
    (dbKeys [("sigA", TransactionInfo.mk "alice" 10 "" true "bhA"),
        ("sigB", TransactionInfo.mk "bob" 5 "" false "bhB")]).Nodup ∧
    dbGet [("sigA", TransactionInfo.mk "alice" 10 "" true "bhA"),
        ("sigB", TransactionInfo.mk "bob" 5 "" false "bhB")] "sigA" =
      some (TransactionInfo.mk "alice" 10 "" true "bhA") ∧
    (TransactionInfo.mk "alice" 10 "" true "bhA").finalized = true ∧
    (∃ db1 r, update_finalized_transactions
        [("sigA", TransactionInfo.mk "alice" 10 "" true "bhA"),
          ("sigB", TransactionInfo.mk "bob" 5 "" false "bhB")] [none] ["bhX"] =
        some (db1, r) ∧
      dbGet db1 "sigA" = some (TransactionInfo.mk "alice" 10 "" true "bhA")) :=
  ⟨by decide, by decide, by decide,
    C4_finalized_monotonic
      [("sigA", TransactionInfo.mk "alice" 10 "" true "bhA"),
        ("sigB", TransactionInfo.mk "bob" 5 "" false "bhB")]
      [none] ["bhX"] (by decide) "sigA"
      (TransactionInfo.mk "alice" 10 "" true "bhA") (by decide) (by decide)⟩

/-- C6: one poll cycle reports the minimum of the confirmation counts of
the records that stay pending (unknown status with valid blockhash counting
as 0), and reports none exactly when every original record has been
finalized or discarded by the end of the cycle. -/
theorem C6_aggregate_confirmation (db : Ledger)
    (statuses : List (Option TransactionStatus)) (recent : List String)
    (hnd : (dbKeys db).Nodup)
    (hlen : (pendingPairsOf db).length ≤ statuses.length) :
    ∃ db1 r, update_finalized_transactions db statuses recent = some (db1, r) ∧
      r = ((((pendingPairsOf db).zip statuses).map
            (fun p => reported_confirmations recent p.1.2 p.2)).reduceOption).min? ∧
      (∀ p ∈ (pendingPairsOf db).zip statuses,
        (reported_confirmations recent p.1.2 p.2).isSome = true ↔
          ∃ v1, dbGet db1 p.1.1 = some v1 ∧ v1.finalized = false) ∧
      (r = none ↔ ∀ s ∈ dbKeys db,
        dbGet db1 s = none ∨ ∃ v, dbGet db1 s = some v ∧ v.finalized = true) := by
  have hsubl := zip_sigs_sublist (pendingPairsOf db) statuses
  have hsub2 := pendingPairs_fst_sublist db
  have hpnd : (((pendingPairsOf db).zip statuses).map (fun p => p.1.1)).Nodup :=
    (hsubl.trans hsub2).nodup hnd
  have hchar : ∀ pa pb pst, ((pa, pb), pst) ∈ (pendingPairsOf db).zip statuses →
      ∃ v, dbGet db pa = some v ∧ v.finalized = false ∧ pb = v.blockhash := by
    intro pa pb pst hp
    exact (pendingPairs_mem db hnd pa pb).1 (List.of_mem_zip hp).1
  have hsome : ∀ p ∈ (pendingPairsOf db).zip statuses,
      ∃ i, dbGet db p.1.1 = some i := by
    rintro ⟨⟨pa, pb⟩, pst⟩ hp
    obtain ⟨v, hv, _, _⟩ := hchar pa pb pst hp
    exact ⟨v, hv⟩
  obtain ⟨db1, hfold, hout, hin, hnd1, hsubk⟩ :=
    pollFold_spec recent ((pendingPairsOf db).zip statuses) db none hnd hpnd hsome
  have hrmin := foldl_combineConf_none
    (((pendingPairsOf db).zip statuses).map
      (fun p => reported_confirmations recent p.1.2 p.2))
  have hallnone : ((((pendingPairsOf db).zip statuses).map
        (fun p => reported_confirmations recent p.1.2 p.2)).foldl combineConf none =
        none) ↔
      ∀ p ∈ (pendingPairsOf db).zip statuses,
        reported_confirmations recent p.1.2 p.2 = none := by
    rw [hrmin, min?_eq_none_iff_nil, reduceOption_nil_iff]
    constructor
    · intro h p hp
      exact h _ (List.mem_map.2 ⟨p, hp, rfl⟩)
    · rintro h x hx
      obtain ⟨p, hp, rfl⟩ := List.mem_map.1 hx
      exact h p hp
  have hpend : ∀ p ∈ (pendingPairsOf db).zip statuses,
      (reported_confirmations recent p.1.2 p.2).isSome = true ↔
        ∃ v1, dbGet db1 p.1.1 = some v1 ∧ v1.finalized = false := by
    rintro ⟨⟨pa, pb⟩, pst⟩ hp
    obtain ⟨v, hv, hvf, hvb⟩ := hchar pa pb pst hp
    have hdb1 := hin _ hp
    simp only at hdb1
    rw [hv] at hdb1
    simp only [Option.some_bind] at hdb1
    rw [hdb1]
    exact recordStep_pending_iff recent pb pst v hvf
  refine ⟨db1, _, hfold, hrmin, hpend, ?_⟩
  rw [hallnone]
  constructor
  · intro hr s hs
    obtain ⟨v, hv⟩ := dbGet_isSome_of_mem_dbKeys db s hs
    by_cases hf : v.finalized = true
    · have hnot : s ∉ ((pendingPairsOf db).zip statuses).map (fun p => p.1.1) := by
        intro hmem
        obtain ⟨q, hq, he⟩ := List.mem_map.1 (hsubl.subset hmem)
        obtain ⟨qa, qb⟩ := q
        simp at he
        subst he
        obtain ⟨v1, hv1, hv1f, _⟩ := (pendingPairs_mem db hnd qa qb).1 hq
        rw [hv] at hv1
        injection hv1 with hvi
        rw [← hvi, hf] at hv1f
        simp at hv1f
      right
      exact ⟨v, by rw [hout s hnot]; exact hv, hf⟩
    · have hvf : v.finalized = false := by
        simpa using hf
      have hpair : (s, v.blockhash) ∈ pendingPairsOf db :=
        (pendingPairs_mem db hnd s v.blockhash).2 ⟨v, hv, hvf, rfl⟩
      obtain ⟨pst, hp⟩ :=
        exists_zip_pair (pendingPairsOf db) statuses (s, v.blockhash) hlen hpair
      have hrep : reported_confirmations recent v.blockhash pst = none := hr _ hp
      have hdb1 := hin _ hp
      simp only at hdb1
      rw [hv] at hdb1
      simp only [Option.some_bind] at hdb1
      rcases recordStep_of_reported_none recent v.blockhash pst v hrep with hnone | hsome1
      · left
        rw [hdb1, hnone]
      · right
        exact ⟨{ v with finalized := true }, by rw [hdb1, hsome1], rfl⟩
  · intro hall
    rintro ⟨⟨pa, pb⟩, pst⟩ hp
    by_contra hne
    have hs : (reported_confirmations recent pb pst).isSome = true := by
      cases he : reported_confirmations recent pb pst with
      | none => exact absurd he hne
      | some c => rfl
    obtain ⟨v1, hv1, hv1f⟩ := (hpend _ hp).1 hs
    obtain ⟨v, hv, hvf, hvb⟩ := hchar pa pb pst hp
    rcases hall pa (mem_dbKeys_of_dbGet db pa v hv) with hnone | ⟨v2, hv2, hv2f⟩
    · rw [hv1] at hnone
      simp at hnone
    · rw [hv1] at hv2
      injection hv2 with hvi
      rw [← hvi, hv1f] at hv2f
      simp at hv2f

/-- Concrete instance of the C6 theorem: two pending records, one with a
known status at 3 confirmations and one unknown with a valid blockhash, and
one finalized record; the cycle reports min 3 0 = 0. -/
theorem C6_aggregate_confirmation_witness :
    (dbKeys [("s1", TransactionInfo.mk "alice" 10 "" false "bh1"),
        ("s2", TransactionInfo.mk "bob" 5 "" true "bh2"),
        ("s3", TransactionInfo.mk "carol" 7 "" false "bh3")]).Nodup ∧
    (pendingPairsOf [("s1", TransactionInfo.mk "alice" 10 "" false "bh1"),
        ("s2", TransactionInfo.mk "bob" 5 "" true "bh2"),
        ("s3", TransactionInfo.mk "carol" 7 "" false "bh3")]).length ≤
      ([some (TransactionStatus.mk (some 3) true), none] :
        List (Option TransactionStatus)).length ∧
    (∃ db1 r, update_finalized_transactions
        [("s1", TransactionInfo.mk "alice" 10 "" false "bh1"),
          ("s2", TransactionInfo.mk "bob" 5 "" true "bh2"),
          ("s3", TransactionInfo.mk "carol" 7 "" false "bh3")]
        [some (TransactionStatus.mk (some 3) true), none] ["bh3"] =
        some (db1, r) ∧
      r = (((pendingPairsOf [("s1", TransactionInfo.mk "alice" 10 "" false "bh1"),
              ("s2", TransactionInfo.mk "bob" 5 "" true "bh2"),
              ("s3", TransactionInfo.mk "carol" 7 "" false "bh3")]).zip
            [some (TransactionStatus.mk (some 3) true), none]).map
          (fun p => reported_confirmations ["bh3"] p.1.2 p.2)).reduceOption.min? ∧
      (∀ p ∈ (pendingPairsOf [("s1", TransactionInfo.mk "alice" 10 "" false "bh1"),
              ("s2", TransactionInfo.mk "bob" 5 "" true "bh2"),
              ("s3", TransactionInfo.mk "carol" 7 "" false "bh3")]).zip
            [some (TransactionStatus.mk (some 3) true), none],
        (reported_confirmations ["bh3"] p.1.2 p.2).isSome = true ↔
          ∃ v1, dbGet db1 p.1.1 = some v1 ∧ v1.finalized = false) ∧
      (r = none ↔ ∀ s ∈ dbKeys [("s1", TransactionInfo.mk "alice" 10 "" false "bh1"),
            ("s2", TransactionInfo.mk "bob" 5 "" true "bh2"),
            ("s3", TransactionInfo.mk "carol" 7 "" false "bh3")],
        dbGet db1 s = none ∨ ∃ v, dbGet db1 s = some v ∧ v.finalized = true)) :=
  ⟨by decide, by decide,
    C6_aggregate_confirmation
      [("s1", TransactionInfo.mk "alice" 10 "" false "bh1"),
        ("s2", TransactionInfo.mk "bob" 5 "" true "bh2"),
        ("s3", TransactionInfo.mk "carol" 7 "" false "bh3")]
      [some (TransactionStatus.mk (some 3) true), none] ["bh3"]
      (by decide) (by decide)⟩

/-- C5: for a non-finalized record whose status lookup returns none, the
poll step removes the record from the ledger and reports no confirmation
count when the stored blockhash is absent from the valid recent set, and
otherwise reports confirmation count 0 and leaves the ledger unchanged. -/
theorem C5_blockhash_expiry_discard (db : Ledger) (signature : String)
    (info : TransactionInfo) (recent : List String)
    (hget : dbGet db signature = some info) (hfin : info.finalized = false) :
    (info.blockhash ∉ recent →
      update_finalized_transaction db signature none info.blockhash recent =
        some (dbRem db signature, none) ∧
      dbGet (dbRem db signature) signature = none) ∧
    (info.blockhash ∈ recent →
      update_finalized_transaction db signature none info.blockhash recent =
        some (db, some 0)) := by
  refine ⟨fun hmem => ⟨?_, dbGet_dbRem_self db signature⟩, fun hmem => ?_⟩
  · simp [update_finalized_transaction, hmem]
  · simp [update_finalized_transaction, hmem]

/-- Concrete instance of the C5 theorem: a one-record ledger with an
expired blockhash is discarded, and with a still-valid blockhash it is kept
with reported confirmation count 0. -/
theorem C5_blockhash_expiry_discard_witness :
    dbGet [("sig1", TransactionInfo.mk "alice" 10 "aux" false "bh1")] "sig1" =
      some (TransactionInfo.mk "alice" 10 "aux" false "bh1") ∧
    (TransactionInfo.mk "alice" 10 "aux" false "bh1").finalized = false ∧
    (((TransactionInfo.mk "alice" 10 "aux" false "bh1").blockhash ∉ ["bh2"] →
      update_finalized_transaction
          [("sig1", TransactionInfo.mk "alice" 10 "aux" false "bh1")] "sig1" none
          (TransactionInfo.mk "alice" 10 "aux" false "bh1").blockhash ["bh2"] =
        some (dbRem [("sig1", TransactionInfo.mk "alice" 10 "aux" false "bh1")] "sig1", none) ∧
      dbGet (dbRem [("sig1", TransactionInfo.mk "alice" 10 "aux" false "bh1")] "sig1") "sig1" =
        none) ∧
    ((TransactionInfo.mk "alice" 10 "aux" false "bh1").blockhash ∈ ["bh2"] →
      update_finalized_transaction
          [("sig1", TransactionInfo.mk "alice" 10 "aux" false "bh1")] "sig1" none
          (TransactionInfo.mk "alice" 10 "aux" false "bh1").blockhash ["bh2"] =
        some ([("sig1", TransactionInfo.mk "alice" 10 "aux" false "bh1")], some 0))) :=
  ⟨by decide, by decide,
    C5_blockhash_expiry_discard
      [("sig1", TransactionInfo.mk "alice" 10 "aux" false "bh1")] "sig1"
      (TransactionInfo.mk "alice" 10 "aux" false "bh1") ["bh2"]
      (by decide) (by decide)⟩

/-- Outcome of one run of process_distribute_tokens: early return with no
remaining work, fatal abort of the pre-flight guard (process::exit), or a
completed submission pass. -/
inductive Outcome where
  | noWork (confirmations : Option Nat)
  | aborted
  | done (confirmations : Option Nat)
deriving DecidableEq, Repr

/-- Externally visible submission actions of a run, in order: ledger writes
of transaction records and network sends, keyed by transaction
signature. -/
inductive Event where
  | write (signature : String) (info : TransactionInfo)
  | send (signature : String)
deriving DecidableEq, Repr

/-- Abstract client of src/thin_client.rs together with the outcomes of key
generation and signing, as pure functions: statuses of the queried
signatures, the current valid recent blockhashes, balances, the blockhash
handed out at submission time, and per allocation the first signature of
the signed transaction and the address of the freshly generated stake
keypair. -/
structure Env where
  statuses : List String → List (Option TransactionStatus)
  recentBlockhashes : List String
  balance : String → Nat
  blockhash : String
  sigOf : Allocation → String
  newStakeAddr : Allocation → String

/-- Run configuration, the fields of DistributeTokensArgs that
src/tokens.rs branches on. -/
structure DistributeArgs where
  dry_run : Bool
  force : Bool
  has_stake_args : Bool
  no_wait : Bool
deriving DecidableEq, Repr

/-- transaction_info built by set_transaction_info
(src/tokens.rs, lines 267-275): an absent stake account address is stored
as the empty string. -/
def transaction_info_of (allocation : Allocation)
    (new_stake_account_address : Option String) (finalized : Bool)
    (blockhash : String) : TransactionInfo :=
  { recipient := allocation.recipient
    amount := allocation.amount
    new_stake_account_address := new_stake_account_address.getD ""
    finalized := finalized
    blockhash := blockhash }

/-- set_transaction_info from src/tokens.rs, lines 259-278. -/
def set_transaction_info (db : Ledger) (allocation : Allocation)
    (signature : String) (blockhash : String)
    (new_stake_account_address : Option String) (finalized : Bool) : Ledger :=
  dbSet db signature
    (transaction_info_of allocation new_stake_account_address finalized blockhash)

/-- distribute_tokens from src/tokens.rs, lines 116-211: per allocation, in
non-dry-run mode, generate a fresh stake keypair, build and sign the
transaction, persist the record under the resulting signature via
set_transaction_info, then issue the asynchronous send (a send failure is
only logged).  Dry-run performs no write and no send.  Returns the final
ledger and the ordered event trace. -/
def distribute_tokens (env : Env) (args : DistributeArgs) :
    List Allocation → Ledger → Ledger × List Event
  | [], db => (db, [])
  | allocation :: rest, db =>
    if args.dry_run then distribute_tokens env args rest db
    else
      let new_stake_account_address := env.newStakeAddr allocation
      let signature := env.sigOf allocation
      let db1 := set_transaction_info db allocation signature env.blockhash
        (some new_stake_account_address) false
      let res := distribute_tokens env args rest db1
      (res.1,
        Event.write signature (transaction_info_of allocation
          (some new_stake_account_address) false env.blockhash) ::
        Event.send signature :: res.2)

/-- Poll invocation as process_distribute_tokens performs it: fetch from
the client the statuses of the pending signatures, then run the cycle. -/
def update_finalized_transactions_env (env : Env) (db : Ledger) :
    Option (Ledger × Option Nat) :=
  update_finalized_transactions db
    (env.statuses ((pendingPairsOf db).map Prod.fst)) env.recentBlockhashes

/-- Waiting loop at the end of process_distribute_tokens
(src/tokens.rs, lines 417-427), with fuel for the unbounded repetition;
exhausted fuel is modelled as none. -/
def pollLoop (env : Env) : Nat → Ledger → Option Nat → Option (Ledger × Option Nat)
  | _, db, none => some (db, none)
  | 0, _, some _ => none
  | fuel + 1, db, some _ =>
    match update_finalized_transactions_env env db with
    | none => none
    | some (db1, conf1) => pollLoop env fuel db1 conf1

/-- Result of one run: final ledger, ordered submission events, outcome. -/
structure RunResult where
  db : Ledger
  events : List Event
  outcome : Outcome
deriving DecidableEq, Repr

/-- process_distribute_tokens from src/tokens.rs, lines 307-429, on an
already-loaded allocation list: poll once, reconcile against the ledger
records, return early when no work remains, abort (process::exit(1)) when
the pre-flight balance guard fires for some reconciled allocation, and
otherwise submit everything, poll again, and unless no_wait is set keep
polling until nothing is pending. -/
def process_distribute_tokens (env : Env) (args : DistributeArgs)
    (allocations0 : List Allocation) (db : Ledger) (fuel : Nat) :
    Option RunResult :=
  match update_finalized_transactions_env env db with
  | none => none
  | some (db1, confirmations) =>
    let transaction_infos := db1.map (fun kv => kv.2)
    let allocations := apply_previous_transactions allocations0 transaction_infos
    if allocations.isEmpty then
      some ⟨db1, [], Outcome.noWork confirmations⟩
    else if allocations.any (fun a =>
        !args.has_stake_args && !args.force && env.balance a.recipient != 0) then
      some ⟨db1, [], Outcome.aborted⟩
    else
      let res := distribute_tokens env args allocations db1
      match update_finalized_transactions_env env res.1 with
      | none => none
      | some (db3, conf2) =>
        if args.no_wait then some ⟨db3, res.2, Outcome.done conf2⟩
        else
          match pollLoop env fuel db3 conf2 with
          | none => none
          | some (db4, c) => some ⟨db4, res.2, Outcome.done c⟩

/-- create_allocation from src/tokens.rs, lines 109-114. -/
def create_allocation (bid : Bid) (dollars_per_sol : ℚ) : Allocation :=
  { recipient := bid.primary_address
    amount := bid.accepted_amount_dollars / dollars_per_sol }

/-- read_allocations from src/tokens.rs, lines 280-297, on the parsed csv
rows: in bid mode every row is (primary_address, accepted_amount_dollars)
converted through the price (the unwrap of an absent price is modelled as
none); otherwise every row is an allocation row, taken verbatim.  No
merging happens here. -/
def read_allocations (from_bids : Bool) (rows : List (String × ℚ))
    (dollars_per_sol : Option ℚ) : Option (List Allocation) :=
  if from_bids then
    match dollars_per_sol with
    | none => none
    | some rate => some (rows.map (fun r =>
        create_allocation
          { accepted_amount_dollars := r.2, primary_address := r.1 } rate))
  else
    some (rows.map (fun r => { recipient := r.1, amount := r.2 }))

/-- Distribution flow from the csv rows: load the allocations, then run the
engine on them (src/tokens.rs, lines 311-312 feeding line 335). -/
def process_distribute_tokens_csv (env : Env) (args : DistributeArgs)
    (from_bids : Bool) (rows : List (String × ℚ)) (dollars_per_sol : Option ℚ)
    (db : Ledger) (fuel : Nat) : Option RunResult :=
  match read_allocations from_bids rows dollars_per_sol with
  | none => none
  | some allocations => process_distribute_tokens env args allocations db fuel

section ProcessLemmas

theorem amount_le_sumFor : ∀ (l : List Allocation),
    (∀ x ∈ l, 0 ≤ x.amount) → ∀ a ∈ l, a.amount ≤ sumFor a.recipient l := by
  intro l
  induction l with
  | nil => intro _ a ha; simp at ha
  | cons b rest ih =>
    intro hl a ha
    have hrest : ∀ x ∈ rest, 0 ≤ x.amount :=
      fun y hy => hl y (List.mem_cons_of_mem b hy)
    rw [sumFor_cons]
    rcases List.mem_cons.1 ha with he | hm
    · subst he
      rw [if_pos rfl]
      have := sumFor_nonneg a.recipient rest hrest
      linarith
    · have h1 := ih hrest a hm
      by_cases hb : b.recipient = a.recipient
      · rw [if_pos hb]
        have := hl b (List.mem_cons_self b rest)
        linarith
      · rw [if_neg hb]
        linarith

theorem update_env_all_finalized (env : Env) (db : Ledger)
    (hfin : ∀ kv ∈ db, kv.2.finalized = true) :
    update_finalized_transactions_env env db = some (db, none) := by
  have h1 : db.filter (fun kv => !kv.2.finalized) = [] :=
    List.filter_eq_nil_iff.2 (fun kv hkv => by simp [hfin kv hkv])
  have hpending : pendingPairsOf db = [] := by
    unfold pendingPairsOf
    rw [h1]
    rfl
  unfold update_finalized_transactions_env update_finalized_transactions
  rw [hpending]
  rfl

theorem distribute_dbGet_mono (env : Env) (args : DistributeArgs) :
    ∀ (allocations : List Allocation) (db : Ledger) (s : String),
      (dbGet db s).isSome = true →
      (dbGet (distribute_tokens env args allocations db).1 s).isSome = true := by
  intro allocations
  induction allocations with
  | nil => intro db s h; exact h
  | cons a rest ih =>
    intro db s h
    unfold distribute_tokens
    by_cases hd : args.dry_run = true
    · rw [if_pos hd]
      exact ih db s h
    · rw [if_neg hd]
      apply ih
      unfold set_transaction_info
      by_cases hs : s = env.sigOf a
      · rw [hs, dbGet_dbSet_self]
        rfl
      · rw [dbGet_dbSet_other _ _ _ _ hs]
        exact h

end ProcessLemmas

/-- C1: with a ledger of finalized records whose per-recipient totals cover
the requested totals, a run performs zero submissions, leaves the ledger
unchanged and returns with no pending work. -/
theorem C1_run_idempotence (env : Env) (args : DistributeArgs)
    (allocations : List Allocation) (db : Ledger) (fuel : Nat)
    (hnnA : ∀ a ∈ allocations, 0 ≤ a.amount)
    (hfin : ∀ kv ∈ db, kv.2.finalized = true)
    (hnnH : ∀ kv ∈ db, 0 ≤ kv.2.amount)
    (hcover : ∀ r : String, sumFor r allocations ≤
      histSumFor r (db.map (fun kv => kv.2))) :
    process_distribute_tokens env args allocations db fuel =
      some ⟨db, [], Outcome.noWork none⟩ := by
  have hpoll := update_env_all_finalized env db hfin
  have hinfos_nn : ∀ t ∈ db.map (fun kv => kv.2), 0 ≤ t.amount := by
    intro t ht
    obtain ⟨kv, hkv, rfl⟩ := List.mem_map.1 ht
    exact hnnH kv hkv
  have hsum0 : ∀ r, sumFor r (deductAll allocations (db.map (fun kv => kv.2))) = 0 := by
    intro r
    rw [deductAll_sumFor _ allocations hnnA hinfos_nn r]
    have := hcover r
    rw [max_eq_left (by linarith)]
  have hrows_nn := deductAll_nonneg (db.map (fun kv => kv.2)) allocations hnnA hinfos_nn
  have happly : apply_previous_transactions allocations (db.map (fun kv => kv.2)) = [] := by
    unfold apply_previous_transactions
    rw [List.filter_eq_nil_iff]
    intro a ha
    have h1 : a.amount ≤
        sumFor a.recipient (deductAll allocations (db.map (fun kv => kv.2))) :=
      amount_le_sumFor _ hrows_nn a ha
    rw [hsum0 a.recipient] at h1
    have hhalf : (0 : ℚ) < mkRat 1 2 := by decide
    simp
    linarith
  simp [process_distribute_tokens, hpoll, happly]

/-- Concrete instance of the C1 theorem: a single allocation fully covered
by one finalized record; the run returns no-work, no events, same
ledger. -/
theorem C1_run_idempotence_witness :
    (∀ a ∈ [Allocation.mk "alice" 3], (0 : ℚ) ≤ a.amount) ∧
    (∀ kv ∈ [("sig1", TransactionInfo.mk "alice" 3 "aux" true "bh")],
      kv.2.finalized = true) ∧
    (∀ kv ∈ [("sig1", TransactionInfo.mk "alice" 3 "aux" true "bh")],
      (0 : ℚ) ≤ kv.2.amount) ∧
    (∀ r : String, sumFor r [Allocation.mk "alice" 3] ≤
      histSumFor r ([("sig1", TransactionInfo.mk "alice" 3 "aux" true "bh")].map
        (fun kv => kv.2))) ∧
    process_distribute_tokens
        (Env.mk (fun _ => []) [] (fun _ => 0) "bh" (fun _ => "s") (fun _ => "k"))
        (DistributeArgs.mk false false false false)
        [Allocation.mk "alice" 3]
        [("sig1", TransactionInfo.mk "alice" 3 "aux" true "bh")] 7 =
      some ⟨[("sig1", TransactionInfo.mk "alice" 3 "aux" true "bh")], [],
        Outcome.noWork none⟩ :=
  ⟨by decide, by decide, by decide,
    (by
      intro r
      rw [sumFor_cons, List.map_cons, histSumFor_cons]
      simp [sumFor, histSumFor]),
    C1_run_idempotence
      (Env.mk (fun _ => []) [] (fun _ => 0) "bh" (fun _ => "s") (fun _ => "k"))
      (DistributeArgs.mk false false false false)
      [Allocation.mk "alice" 3]
      [("sig1", TransactionInfo.mk "alice" 3 "aux" true "bh")] 7
      (by decide) (by decide) (by decide)
      (by
        intro r
        rw [sumFor_cons, List.map_cons, histSumFor_cons]
        simp [sumFor, histSumFor])⟩

/-- C3: in non-dry-run mode every send event is preceded in the trace by a
write of a record under the same signature, and every sent signature has a
record in the resulting ledger. -/
theorem C3_record_before_send (env : Env) (args : DistributeArgs)
    (allocations : List Allocation) (db : Ledger)
    (hdry : args.dry_run = false) :
    (∀ (pre : List Event) (s : String) (post : List Event),
      (distribute_tokens env args allocations db).2 = pre ++ Event.send s :: post →
      ∃ info, Event.write s info ∈ pre) ∧
    (∀ s : String, Event.send s ∈ (distribute_tokens env args allocations db).2 →
      (dbGet (distribute_tokens env args allocations db).1 s).isSome = true) := by
  induction allocations generalizing db with
  | nil =>
    constructor
    · intro pre s post h
      have h2 : ([] : List Event) = pre ++ Event.send s :: post := h
      exact absurd h2.symm (by simp)
    · intro s h
      have h2 : Event.send s ∈ ([] : List Event) := h
      simp at h2
  | cons a rest ih =>
    have hstep2 : (distribute_tokens env args (a :: rest) db).2 =
        Event.write (env.sigOf a) (transaction_info_of a
          (some (env.newStakeAddr a)) false env.blockhash) ::
        Event.send (env.sigOf a) ::
        (distribute_tokens env args rest
          (set_transaction_info db a (env.sigOf a) env.blockhash
            (some (env.newStakeAddr a)) false)).2 := by
      show Prod.snd (if args.dry_run = true then _ else _) = _
      rw [if_neg (by rw [hdry]; exact Bool.false_ne_true)]
    have hstep1 : (distribute_tokens env args (a :: rest) db).1 =
        (distribute_tokens env args rest
          (set_transaction_info db a (env.sigOf a) env.blockhash
            (some (env.newStakeAddr a)) false)).1 := by
      show Prod.fst (if args.dry_run = true then _ else _) = _
      rw [if_neg (by rw [hdry]; exact Bool.false_ne_true)]
    obtain ⟨ih1, ih2⟩ := ih (set_transaction_info db a (env.sigOf a) env.blockhash
      (some (env.newStakeAddr a)) false)
    constructor
    · intro pre s post h
      rw [hstep2] at h
      cases pre with
      | nil =>
        rw [List.nil_append] at h
        have := (List.cons.inj h).1
        exact absurd this (by simp)
      | cons e pre1 =>
        rw [List.cons_append] at h
        have he := (List.cons.inj h).1
        have htl := (List.cons.inj h).2
        cases pre1 with
        | nil =>
          rw [List.nil_append] at htl
          have hs := (List.cons.inj htl).1
          have hss : env.sigOf a = s := by injection hs
          refine ⟨transaction_info_of a (some (env.newStakeAddr a)) false
            env.blockhash, ?_⟩
          rw [← he, ← hss]
          exact List.mem_cons_self _ _
        | cons e2 pre2 =>
          rw [List.cons_append] at htl
          have htl2 := (List.cons.inj htl).2
          obtain ⟨info, hinfo⟩ := ih1 pre2 s post htl2
          exact ⟨info, List.mem_cons_of_mem _ (List.mem_cons_of_mem _ hinfo)⟩
    · intro s h
      rw [hstep2] at h
      rcases List.mem_cons.1 h with he | h2
      · exact absurd he (by simp)
      · rcases List.mem_cons.1 h2 with he | h3
        · have hsig : s = env.sigOf a := by injection he
          rw [hstep1]
          apply distribute_dbGet_mono
          rw [hsig]
          unfold set_transaction_info
          rw [dbGet_dbSet_self]
          rfl
        · rw [hstep1]
          exact ih2 s h3

/-- Concrete instance of the C3 theorem: one plain allocation; the trace is
a write followed by a send of the same signature and the record is in the
ledger. -/
theorem C3_record_before_send_witness :
    (DistributeArgs.mk false false false true).dry_run = false ∧
    ((∀ (pre : List Event) (s : String) (post : List Event),
      (distribute_tokens
          (Env.mk (fun _ => []) [] (fun _ => 0) "bh" (fun _ => "sig1") (fun _ => "k"))
          (DistributeArgs.mk false false false true)
          [Allocation.mk "alice" 10] []).2 = pre ++ Event.send s :: post →
      ∃ info, Event.write s info ∈ pre) ∧
    (∀ s : String, Event.send s ∈ (distribute_tokens
          (Env.mk (fun _ => []) [] (fun _ => 0) "bh" (fun _ => "sig1") (fun _ => "k"))
          (DistributeArgs.mk false false false true)
          [Allocation.mk "alice" 10] []).2 →
      (dbGet (distribute_tokens
          (Env.mk (fun _ => []) [] (fun _ => 0) "bh" (fun _ => "sig1") (fun _ => "k"))
          (DistributeArgs.mk false false false true)
          [Allocation.mk "alice" 10] []).1 s).isSome = true)) :=
  ⟨by decide,
    C3_record_before_send
      (Env.mk (fun _ => []) [] (fun _ => 0) "bh" (fun _ => "sig1") (fun _ => "k"))
      (DistributeArgs.mk false false false true)
      [Allocation.mk "alice" 10] [] (by decide)⟩

/-- C7: in a plain-transfer run with the force flag unset, a non-zero
balance on some reconciled recipient aborts the whole run with no events
(no send, no submission-time write) and the ledger exactly as the initial
poll left it; a staking configuration or the force flag bypasses the
guard. -/
theorem C7_preflight_guard (env : Env) (args : DistributeArgs)
    (allocations : List Allocation) (db db1 : Ledger) (conf : Option Nat)
    (fuel : Nat)
    (hpoll : update_finalized_transactions_env env db = some (db1, conf))
    (hstake : args.has_stake_args = false) (hforce : args.force = false)
    (hviol : ∃ a ∈ apply_previous_transactions allocations
        (db1.map (fun kv => kv.2)), env.balance a.recipient ≠ 0) :
    process_distribute_tokens env args allocations db fuel =
      some ⟨db1, [], Outcome.aborted⟩ ∧
    (∀ (args2 : DistributeArgs) (res : RunResult),
      args2.has_stake_args = true ∨ args2.force = true →
      process_distribute_tokens env args2 allocations db fuel = some res →
      res.outcome ≠ Outcome.aborted) := by
  obtain ⟨a0, ha0, hbal⟩ := hviol
  have hne : (apply_previous_transactions allocations
      (db1.map (fun kv => kv.2))).isEmpty = false := by
    cases he : apply_previous_transactions allocations (db1.map (fun kv => kv.2)) with
    | nil => rw [he] at ha0; simp at ha0
    | cons x xs => rfl
  constructor
  · have hany : (apply_previous_transactions allocations
        (db1.map (fun kv => kv.2))).any (fun a =>
          !args.has_stake_args && !args.force && env.balance a.recipient != 0) =
        true :=
      List.any_eq_true.2 ⟨a0, ha0, by simp [hstake, hforce, hbal]⟩
    simp [process_distribute_tokens, hpoll, hne, hany]
  · intro args2 res hbyp hrun
    have hany2 : (apply_previous_transactions allocations
        (db1.map (fun kv => kv.2))).any (fun a =>
          !args2.has_stake_args && !args2.force &&
            env.balance a.recipient != 0) = false := by
      refine List.any_eq_false.2 ?_
      intro x _
      rcases hbyp with h | h
      · simp [h]
      · simp [h]
    simp only [process_distribute_tokens, hpoll] at hrun
    rw [hne, hany2] at hrun
    simp only [Bool.false_eq_true, if_false] at hrun
    by_cases hempty : False
    · exact absurd hempty (by simp)
    · cases hup : update_finalized_transactions_env env
          (distribute_tokens env args2 (apply_previous_transactions allocations
            (db1.map (fun kv => kv.2))) db1).1 with
      | none =>
        rw [hup] at hrun
        simp at hrun
      | some pr =>
        obtain ⟨db3, conf2⟩ := pr
        rw [hup] at hrun
        simp only at hrun
        by_cases hw : args2.no_wait = true
        · rw [if_pos hw] at hrun
          injection hrun with hres
          rw [← hres]
          simp
        · rw [if_neg hw] at hrun
          cases hl : pollLoop env fuel db3 conf2 with
          | none =>
            rw [hl] at hrun
            simp at hrun
          | some pr2 =>
            obtain ⟨db4, c⟩ := pr2
            rw [hl] at hrun
            simp only at hrun
            injection hrun with hres
            rw [← hres]
            simp

/-- Concrete instance of the C7 theorem: one allocation, an empty ledger,
a recipient with balance 5 in a plain non-force run aborts with no events;
staking or force configurations never abort. -/
theorem C7_preflight_guard_witness :
    update_finalized_transactions_env
        (Env.mk (fun _ => []) [] (fun _ => 5) "bh" (fun _ => "s") (fun _ => "k"))
        [] = some ([], none) ∧
    (DistributeArgs.mk false false false true).has_stake_args = false ∧
    (DistributeArgs.mk false false false true).force = false ∧
    (∃ a ∈ apply_previous_transactions [Allocation.mk "alice" 3]
        (([] : Ledger).map (fun kv => kv.2)),
      (Env.mk (fun _ => []) [] (fun _ => 5) "bh" (fun _ => "s")
        (fun _ => "k")).balance a.recipient ≠ 0) ∧
    (process_distribute_tokens
        (Env.mk (fun _ => []) [] (fun _ => 5) "bh" (fun _ => "s") (fun _ => "k"))
        (DistributeArgs.mk false false false true)
        [Allocation.mk "alice" 3] [] 4 =
      some ⟨[], [], Outcome.aborted⟩ ∧
    (∀ (args2 : DistributeArgs) (res : RunResult),
      args2.has_stake_args = true ∨ args2.force = true →
      process_distribute_tokens
          (Env.mk (fun _ => []) [] (fun _ => 5) "bh" (fun _ => "s") (fun _ => "k"))
          args2 [Allocation.mk "alice" 3] [] 4 = some res →
      res.outcome ≠ Outcome.aborted)) :=
  ⟨rfl, rfl, rfl, by decide,
    C7_preflight_guard
      (Env.mk (fun _ => []) [] (fun _ => 5) "bh" (fun _ => "s") (fun _ => "k"))
      (DistributeArgs.mk false false false true)
      [Allocation.mk "alice" 3] [] [] none 4 rfl rfl rfl (by decide)⟩

/-- C8 as stated is false on the code: distribute_tokens always passes the
freshly generated keypair address to set_transaction_info, plain transfers
included, so the record persisted by a plain submission carries that
address, not the empty string. -/
theorem C8_plain_submission_counterexample :
    (DistributeArgs.mk false false false true).has_stake_args = false ∧
    Event.write "sig1" (TransactionInfo.mk "alice" 10 "stake1" false "bh") ∈
      (distribute_tokens
        (Env.mk (fun _ => []) [] (fun _ => 0) "bh" (fun _ => "sig1")
          (fun _ => "stake1"))
        (DistributeArgs.mk false false false true)
        [Allocation.mk "alice" 10] []).2 ∧
    dbGet (distribute_tokens
        (Env.mk (fun _ => []) [] (fun _ => 0) "bh" (fun _ => "sig1")
          (fun _ => "stake1"))
        (DistributeArgs.mk false false false true)
        [Allocation.mk "alice" 10] []).1 "sig1" =
      some (TransactionInfo.mk "alice" 10 "stake1" false "bh") ∧
    (TransactionInfo.mk "alice" 10 "stake1" false "bh").new_stake_account_address
      ≠ "" := by
  refine ⟨rfl, ?_, ?_, ?_⟩
  · decide
  · decide
  · decide

/-- C8 amended: every record written by distribute_tokens, in the plain and
the staking case alike, stores the address of the freshly generated keypair
in new_stake_account_address (the generated account is only funded in the
staking case); the stored field is never the empty-string spelling of an
absent address unless the generator returns the empty string. -/
theorem C8_auxiliary_address_amended (env : Env) (args : DistributeArgs)
    (allocations : List Allocation) (db : Ledger) (s : String)
    (info : TransactionInfo)
    (hw : Event.write s info ∈ (distribute_tokens env args allocations db).2) :
    ∃ a ∈ allocations, s = env.sigOf a ∧
      info = transaction_info_of a (some (env.newStakeAddr a)) false
        env.blockhash ∧
      info.new_stake_account_address = env.newStakeAddr a := by
  induction allocations generalizing db with
  | nil =>
    have h2 : Event.write s info ∈ ([] : List Event) := hw
    simp at h2
  | cons a rest ih =>
    by_cases hd : args.dry_run = true
    · have h2 : Event.write s info ∈
          (distribute_tokens env args rest db).2 := by
        have he : distribute_tokens env args (a :: rest) db =
            distribute_tokens env args rest db := by
          show (if args.dry_run = true then _ else _) = _
          rw [if_pos hd]
        rw [he] at hw
        exact hw
      obtain ⟨b, hb, h⟩ := ih db h2
      exact ⟨b, List.mem_cons_of_mem a hb, h⟩
    · have hstep2 : (distribute_tokens env args (a :: rest) db).2 =
          Event.write (env.sigOf a) (transaction_info_of a
            (some (env.newStakeAddr a)) false env.blockhash) ::
          Event.send (env.sigOf a) ::
          (distribute_tokens env args rest
            (set_transaction_info db a (env.sigOf a) env.blockhash
              (some (env.newStakeAddr a)) false)).2 := by
        show Prod.snd (if args.dry_run = true then _ else _) = _
        rw [if_neg hd]
      rw [hstep2] at hw
      rcases List.mem_cons.1 hw with he | h2
      · have hs : s = env.sigOf a ∧ info = transaction_info_of a
            (some (env.newStakeAddr a)) false env.blockhash := by
          have h1 := he
          injection h1 with hsig hinfo
          exact ⟨hsig, hinfo⟩
        refine ⟨a, List.mem_cons_self a rest, hs.1, hs.2, ?_⟩
        rw [hs.2]
        rfl
      · rcases List.mem_cons.1 h2 with he | h3
        · exact absurd he (by simp)
        · obtain ⟨b, hb, h⟩ := ih _ h3
          exact ⟨b, List.mem_cons_of_mem a hb, h⟩

/-- Concrete instance of the amended C8 theorem at a plain submission. -/
theorem C8_auxiliary_address_amended_witness :
    Event.write "sig1" (TransactionInfo.mk "alice" 10 "stake1" false "bh") ∈
      (distribute_tokens
        (Env.mk (fun _ => []) [] (fun _ => 0) "bh" (fun _ => "sig1")
          (fun _ => "stake1"))
        (DistributeArgs.mk false false false true)
        [Allocation.mk "alice" 10] []).2 ∧
    (∃ a ∈ [Allocation.mk "alice" 10],
      "sig1" = (Env.mk (fun _ => []) [] (fun _ => 0) "bh" (fun _ => "sig1")
        (fun _ => "stake1")).sigOf a ∧
      TransactionInfo.mk "alice" 10 "stake1" false "bh" =
        transaction_info_of a (some ((Env.mk (fun _ => []) [] (fun _ => 0) "bh"
          (fun _ => "sig1") (fun _ => "stake1")).newStakeAddr a)) false
          (Env.mk (fun _ => []) [] (fun _ => 0) "bh" (fun _ => "sig1")
            (fun _ => "stake1")).blockhash ∧
      (TransactionInfo.mk "alice" 10 "stake1" false "bh").new_stake_account_address =
        (Env.mk (fun _ => []) [] (fun _ => 0) "bh" (fun _ => "sig1")
          (fun _ => "stake1")).newStakeAddr a) :=
  ⟨by decide,
    C8_auxiliary_address_amended
      (Env.mk (fun _ => []) [] (fun _ => 0) "bh" (fun _ => "sig1")
        (fun _ => "stake1"))
      (DistributeArgs.mk false false false true)
      [Allocation.mk "alice" 10] [] "sig1"
      (TransactionInfo.mk "alice" 10 "stake1" false "bh") (by decide)⟩

/-- C9 as stated is false on the code: process_distribute_tokens never
calls merge_allocations; the loaded sequence keeps one entry per input row,
so duplicate recipients flow unmerged into reconciliation and submission,
as the two write events for the same recipient show. -/
theorem C9_no_merge_counterexample :
    read_allocations false [("alice", 1), ("alice", 2)] none =
      some [Allocation.mk "alice" 1, Allocation.mk "alice" 2] ∧
    ¬ (recips [Allocation.mk "alice" 1, Allocation.mk "alice" 2]).Nodup ∧
    (process_distribute_tokens_csv
        (Env.mk (fun _ => []) [] (fun _ => 0) "bh"
          (fun a => a.recipient ++ "-sig") (fun _ => "stake1"))
        (DistributeArgs.mk false false false true) false
        [("alice", 1), ("alice", 2)] none [] 0).map (fun res => res.events) =
      some [Event.write "alice-sig" (TransactionInfo.mk "alice" 1 "stake1" false "bh"),
        Event.send "alice-sig",
        Event.write "alice-sig" (TransactionInfo.mk "alice" 2 "stake1" false "bh"),
        Event.send "alice-sig"] := by
  refine ⟨rfl, by decide, ?_⟩
  decide

/-- C9 amended: in the distribution flow the loader hands the parsed rows
through one-to-one, recipients in input order with duplicates preserved,
and the engine reconciles and submits exactly this unmerged sequence
(merge_allocations is used only by the balances flow). -/
theorem C9_loading_keeps_duplicates (env : Env) (args : DistributeArgs)
    (rows : List (String × ℚ)) (dollars_per_sol : Option ℚ) (db : Ledger)
    (fuel : Nat) :
    read_allocations false rows dollars_per_sol =
      some (rows.map (fun r => Allocation.mk r.1 r.2)) ∧
    recips (rows.map (fun r => Allocation.mk r.1 r.2)) = rows.map Prod.fst ∧
    process_distribute_tokens_csv env args false rows dollars_per_sol db fuel =
      process_distribute_tokens env args (rows.map (fun r => Allocation.mk r.1 r.2))
        db fuel := by
  refine ⟨rfl, ?_, rfl⟩
  unfold recips
  rw [List.map_map]
  rfl

end Tokens
